import Mathlib

/-!
Shallow embedding of the certificate chain builder and tar archive codec of
the wing-trust repository (source files `src/unnamed/part_001` — the App
component with `resolveChain`, `handleAddCa`, `handleRemoveCa` — and
`src/unnamed/part_007` — the crypto/tar service with `createTarball`,
`untar`, `parseCertificate`, `checkKeyPair`, `verifyParent`, `isSelfSigned`).

The node-forge collaborator library (PEM parsing, signature verification,
RSA key parsing, SHA-1 fingerprinting) and the bundle-splitting regex are
modelled as an explicit environment of abstract functions (`ForgeEnv`);
every function of the repository itself is translated faithfully.
Byte buffers (`Uint8Array`) are modelled as `List Nat` with values < 256;
JS strings flowing through `TextEncoder`/`TextDecoder` are modelled at the
byte level.
-/

namespace WingTrust

/-- One distinguished-name attribute as exposed by forge
(`attr.name` / `attr.shortName` may be absent, `attr.value` is a string). -/
structure PkiAttribute where
  name : Option String
  shortName : Option String
  value : String
deriving DecidableEq

/-- A parsed certificate as exposed by the forge collaborator: the fields the
repository reads.  `rsaModulus` is the public key modulus `n` when the key is
RSA (`none` models a non-RSA public key, where accessing `.n` throws). -/
structure ForgeCert where
  subjectAttrs : List PkiAttribute
  issuerAttrs : List PkiAttribute
  serialNumber : String
  validFromTs : Nat
  validToTs : Nat
  rsaModulus : Option Nat
deriving DecidableEq

/-- A parsed RSA private key (forge `privateKeyFromPem` only yields RSA keys;
its modulus `n` is always present). -/
structure RsaPrivateKey where
  n : Nat
deriving DecidableEq

/-- Result of forge `child.verify(parent)`: a boolean, or a thrown failure
(unsupported algorithm, malformed structure). -/
inductive VerifyOutcome where
  | ok (b : Bool)
  | err
deriving DecidableEq

/-- The collaborator environment: abstract model of the node-forge calls and
the bundle-splitting regex used by the repository.  `parse` returns `none`
where `forge.pki.certificateFromPem` would throw. -/
structure ForgeEnv where
  parse : String → Option ForgeCert
  verify : ForgeCert → ForgeCert → VerifyOutcome
  privateKeyFromPem : String → Option RsaPrivateKey
  toPem : ForgeCert → String
  sha1Fingerprint : ForgeCert → String
  extractAiaUrl : ForgeCert → Option String
  splitBundle : String → List String

/-- `isPrefixList a b` is true when `a` is a prefix of `b`. -/
def isPrefixList : List Char → List Char → Bool
  | [], _ => true
  | _ :: _, [] => false
  | a :: as, b :: bs => a = b && isPrefixList as bs

/-- Substring occurrence test on character lists (JS `String.includes`). -/
def containsSub (needle : List Char) : List Char → Bool
  | [] => needle.isEmpty
  | c :: t => isPrefixList needle (c :: t) || containsSub needle t

/-- JS `hay.includes(needle)`. -/
def strIncludes (hay needle : String) : Bool :=
  containsSub needle.data hay.data

/-- `normalizePem` from `src/unnamed/part_007` (second variant, lines
370-375): wrap bare base64 in certificate delimiters unless a PEM header is
already present. -/
def normalizePem (pem : String) : String :=
  if !(strIncludes pem "-----BEGIN CERTIFICATE-----")
      && !(strIncludes pem "BEGIN PRIVATE KEY")
      && !(strIncludes pem "BEGIN RSA PRIVATE KEY") then
    "-----BEGIN CERTIFICATE-----\n" ++ pem.trim ++ "\n-----END CERTIFICATE-----"
  else pem

/-- Insert a string into a sorted list (ascending, stable for equals). -/
def insertSorted (s : String) : List String → List String
  | [] => [s]
  | t :: ts => if s < t then s :: t :: ts else t :: insertSorted s ts

/-- Ascending sort of strings, modelling the default JS `Array.sort()` on the
mapped DN parts. -/
def sortStrings : List String → List String
  | [] => []
  | s :: ss => insertSorted s (sortStrings ss)

/-- One part of the comparable DN string: JS template
`` `${a.shortName}=${a.value}` `` (an absent `shortName` prints as
`"undefined"`). -/
def dnPart (a : PkiAttribute) : String :=
  (match a.shortName with
   | some s => s
   | none => "undefined") ++ "=" ++ a.value

/-- `getDnString` from `verifyParent` (`src/unnamed/part_007` lines 447-449):
`attrs.map(a => `${a.shortName}=${a.value}`).sort().join(', ')`. -/
def getDnString (attrs : List PkiAttribute) : String :=
  String.intercalate ", " (sortStrings (attrs.map dnPart))

/-- `verifyParent` from `src/unnamed/part_007` lines 434-458.  Parse both
PEMs (throw → `false`); try the strict cryptographic check and return `true`
if it returns `true`; in every other case — the primitive returning `false`
or throwing — fall through to the loose DN comparison. -/
def verifyParent (env : ForgeEnv) (childPem parentPem : String) : Bool :=
  match env.parse (normalizePem childPem) with
  | none => false
  | some child =>
    match env.parse (normalizePem parentPem) with
    | none => false
    | some parent =>
      match env.verify child parent with
      | .ok true => true
      | _ => getDnString child.issuerAttrs == getDnString parent.subjectAttrs

/-- `isSelfSigned` from `src/unnamed/part_007` lines 460-462. -/
def isSelfSigned (env : ForgeEnv) (pem : String) : Bool :=
  verifyParent env pem pem

/-- `checkKeyPair` from `src/unnamed/part_007` lines 421-432: parse the
certificate and the private key (any throw is caught and yields `false`),
then compare `certRsa.n.toString(16) === keyRsa.n.toString(16)`; reading `.n`
of a non-RSA certificate key throws (caught, `false`).  Hex-string equality
of the two moduli coincides with numeric equality since `toString(16)` is
canonical. -/
def checkKeyPair (env : ForgeEnv) (certPem keyPem : String) : Bool :=
  match env.parse (normalizePem certPem) with
  | none => false
  | some cert =>
    match env.privateKeyFromPem keyPem with
    | none => false
    | some key =>
      match cert.rsaModulus with
      | none => false
      | some n => n == key.n

/-- `CertificateInfo` from `src/types.ts` (validity timestamps as `Nat`). -/
structure CertificateInfo where
  commonName : String
  organization : String
  issuer : String
  validFrom : Nat
  validTo : Nat
  serialNumber : String
  raw : String
  aiaUrl : Option String
  fingerprint : Option String
deriving DecidableEq

/-- JS `attrs.find(attr => attr.shortName === sn || attr.name === n)`. -/
def findAttr (sn n : String) (attrs : List PkiAttribute) : Option PkiAttribute :=
  attrs.find? (fun a => a.shortName == some sn || a.name == some n)

/-- JS `found?.value as string || 'Unknown'` (both an absent attribute and an
empty value are falsy and yield `"Unknown"`). -/
def attrValueOr (found : Option PkiAttribute) : String :=
  match found with
  | some a => if a.value = "" then "Unknown" else a.value
  | none => "Unknown"

/-- The `info` record built by `parseCertificate` (`src/unnamed/part_007`
lines 377-419), `none` where the function would throw its "Invalid
Certificate format" error. -/
def parseCertInfo (env : ForgeEnv) (pemOrDer : String) : Option CertificateInfo :=
  match env.parse (normalizePem pemOrDer) with
  | none => none
  | some cert => some
    { commonName := attrValueOr (findAttr "CN" "commonName" cert.subjectAttrs)
      organization := attrValueOr (findAttr "O" "organizationName" cert.subjectAttrs)
      issuer := attrValueOr (findAttr "CN" "commonName" cert.issuerAttrs)
      validFrom := cert.validFromTs
      validTo := cert.validToTs
      serialNumber := cert.serialNumber
      raw := env.toPem cert
      aiaUrl := env.extractAiaUrl cert
      fingerprint := some (env.sha1Fingerprint cert) }

section VerifyTheorems

/-- Concrete certificate whose issuer DN equals its subject DN, used to
witness the behaviour of `verifyParent` when the primitive returns `false`. -/
def dnMatchCert : ForgeCert :=
  { subjectAttrs := [{ name := some "commonName", shortName := some "CN", value := "A" }]
    issuerAttrs := [{ name := some "commonName", shortName := some "CN", value := "A" }]
    serialNumber := "01"
    validFromTs := 0
    validToTs := 10
    rsaModulus := some 5 }

/-- Environment whose verification primitive always runs successfully and
returns `false`. -/
def okFalseEnv : ForgeEnv :=
  { parse := fun _ => some dnMatchCert
    verify := fun _ _ => .ok false
    privateKeyFromPem := fun _ => some { n := 5 }
    toPem := fun _ => "PEM"
    sha1Fingerprint := fun _ => "f0"
    extractAiaUrl := fun _ => none
    splitBundle := fun _ => [] }

/-- Claim C1, counterexample: in `okFalseEnv` the verification primitive
evaluates successfully and returns `false` on the (parseable) pair, yet
`verifyParent` returns `true` — the loose DN fallback is consulted on a
normal `false` result, not only on a thrown failure. -/
theorem verifyParent_strict_false_cex :
    okFalseEnv.parse (normalizePem "childPem") = some dnMatchCert
    ∧ okFalseEnv.parse (normalizePem "parentPem") = some dnMatchCert
    ∧ okFalseEnv.verify dnMatchCert dnMatchCert = .ok false
    ∧ verifyParent okFalseEnv "childPem" "parentPem" = true := by
  refine ⟨rfl, rfl, rfl, ?_⟩
  decide

/-- Claim C1, amended: when both certificates parse and the verification
primitive evaluates successfully but returns `false`, `verifyParent` does not
return `false` outright; it returns the result of the loose DN comparison of
the child's issuer against the parent's subject (the fallback is consulted
both on a thrown failure and on a normal `false` result). -/
theorem verifyParent_fallback_on_strict_false (env : ForgeEnv)
    (childPem parentPem : String) (child parent : ForgeCert)
    (hc : env.parse (normalizePem childPem) = some child)
    (hp : env.parse (normalizePem parentPem) = some parent)
    (hv : env.verify child parent = .ok false) :
    verifyParent env childPem parentPem
      = (getDnString child.issuerAttrs == getDnString parent.subjectAttrs) := by
  simp only [verifyParent, hc, hp, hv]

/-- Witness for `verifyParent_fallback_on_strict_false` at a concrete
environment and input. -/
theorem verifyParent_fallback_on_strict_false_witness :
    verifyParent okFalseEnv "childPem" "parentPem"
      = (getDnString dnMatchCert.issuerAttrs == getDnString dnMatchCert.subjectAttrs) :=
  verifyParent_fallback_on_strict_false okFalseEnv "childPem" "parentPem"
    dnMatchCert dnMatchCert rfl rfl rfl

/-- Claim C9: `isSelfSigned(C)` is definitionally `verifyLink(C, C)` — for
every environment and certificate input the two calls agree. -/
theorem isSelfSigned_eq_verifyParent_self (env : ForgeEnv) (pem : String) :
    isSelfSigned env pem = verifyParent env pem pem := rfl

/-- Claim C10: `checkKeyPair` is a total boolean function (never throws) and
returns `true` exactly when the certificate parses, the private key parses,
the certificate's public key is RSA, and the private key's modulus equals the
certificate's embedded public-key modulus; in every failure case it returns
`false`. -/
theorem checkKeyPair_true_iff (env : ForgeEnv) (certPem keyPem : String) :
    checkKeyPair env certPem keyPem = true
      ↔ ∃ cert key n,
          env.parse (normalizePem certPem) = some cert
          ∧ env.privateKeyFromPem keyPem = some key
          ∧ cert.rsaModulus = some n ∧ key.n = n := by
  constructor
  · intro h
    cases hc : env.parse (normalizePem certPem) with
    | none => simp [checkKeyPair, hc] at h
    | some cert =>
      cases hk : env.privateKeyFromPem keyPem with
      | none => simp [checkKeyPair, hc, hk] at h
      | some key =>
        cases hm : cert.rsaModulus with
        | none => simp [checkKeyPair, hc, hk, hm] at h
        | some n =>
          simp only [checkKeyPair, hc, hk, hm, beq_iff_eq] at h
          exact ⟨cert, key, n, rfl, rfl, hm, h.symm⟩
  · rintro ⟨cert, key, n, hc, hk, hm, hn⟩
    simp [checkKeyPair, hc, hk, hm, hn]

/-- Witness for `checkKeyPair_true_iff`: the forward direction applied at a
concrete environment where everything matches. -/
theorem checkKeyPair_true_iff_witness :
    ∃ cert key n,
      okFalseEnv.parse (normalizePem "c") = some cert
      ∧ okFalseEnv.privateKeyFromPem "k" = some key
      ∧ cert.rsaModulus = some n ∧ key.n = n :=
  (checkKeyPair_true_iff okFalseEnv "c" "k").mp rfl

end VerifyTheorems

/-! ## Chain state (`src/types.ts` and `src/unnamed/part_001`) -/

/-- The `status` field of a `ChainItem` (`src/types.ts`). -/
inductive ChainStatus where
  | pending | downloading | success | failed | uploaded
deriving DecidableEq

/-- The `source` field of a `ChainItem` (`src/types.ts`). -/
inductive ChainSource where
  | uploaded | fetched | root
deriving DecidableEq

/-- `ChainItem` from `src/types.ts`. -/
structure ChainItem where
  id : String
  status : ChainStatus
  info : CertificateInfo
  source : ChainSource
  pem : String
  isRoot : Bool
  signsChild : Bool
deriving DecidableEq

/-- The wizard step enum `AppStep` from `src/types.ts`. -/
inductive AppStep where
  | UPLOAD | CHAIN_BUILD | ANALYSIS | PACKAGING | DISTRIBUTION
deriving DecidableEq

/-! ## Automatic chain resolution (`resolveChain`, `src/unnamed/part_001`
lines 143-183) -/

/-- One fetch of `fetchCertificate`: the returned PEM text, or a thrown
failure (`.error`) after both the direct and the proxied route fail. -/
def FetchFn := String → Except Unit String

/-- The `while (currentAia && depth < maxDepth)` loop of `resolveChain`,
with `gas = maxDepth - depth` remaining iterations.  Returns the `newChain`
accumulated by the loop together with a flag recording whether an exception
(fetch or parse failure) escaped the loop body. -/
def resolveChainLoop (env : ForgeEnv) (fetch : FetchFn) :
    Nat → Option String → String → Nat → List ChainItem × Bool
  | 0, _, _, _ => ([], false)
  | _ + 1, none, _, _ => ([], false)
  | gas + 1, some aia, childPem, depth =>
    match fetch aia with
    | .error _ => ([], true)
    | .ok parentPem =>
      if parentPem = childPem then ([], false)
      else
        match parseCertInfo env parentPem with
        | none => ([], true)
        | some parentInfo =>
          let item : ChainItem :=
            { id := "auto-" ++ toString depth
              status := .success
              info := parentInfo
              source := .fetched
              pem := parentPem
              isRoot := isSelfSigned env parentPem
              signsChild := verifyParent env childPem parentPem }
          if item.isRoot then ([item], false)
          else
            let rest := resolveChainLoop env fetch gas parentInfo.aiaUrl parentPem (depth + 1)
            (item :: rest.1, rest.2)

/-- `resolveChain`: run the loop from the leaf's AIA URL with `maxDepth = 5`;
on normal completion commit `newChain` and move to the ANALYSIS step; if an
exception escaped, the `catch` block only falls back to the manual
CHAIN_BUILD step — `setChainItems(newChain)` is skipped, so the previous
chain state (`prevChain`) is what remains. -/
def resolveChain (env : ForgeEnv) (fetch : FetchFn) (info : CertificateInfo)
    (rootPem : String) (prevChain : List ChainItem) : List ChainItem × AppStep :=
  let r := resolveChainLoop env fetch 5 info.aiaUrl rootPem 0
  if r.2 then (prevChain, .CHAIN_BUILD) else (r.1, .ANALYSIS)

/-! ## Manual chain extension (`handleAddCa`, `src/unnamed/part_001`
lines 185-280) -/

/-- Notices surfaced by `handleAddCa` through `alert(...)` when the batch
yields no usable candidate. -/
inductive AddCaNotice where
  | parseError | noNewCerts
deriving DecidableEq

/-- Result of one `handleAddCa` call: the chain state afterwards and the
notice, if any, that was alerted. -/
structure AddCaOutcome where
  chain : List ChainItem
  notice : Option AddCaNotice
deriving DecidableEq

/-- JS `info.fingerprint === certInfo?.fingerprint`: with no leaf info the
optional chaining yields `undefined`, which never equals the candidate's
fingerprint string. -/
def leafFpCheck (certInfo : Option CertificateInfo) (info : CertificateInfo) : Bool :=
  match certInfo with
  | some ci => info.fingerprint == ci.fingerprint
  | none => false

/-- Body of the candidate-collection loop of `handleAddCa` (lines 201-215):
parse the block (a parse failure keeps the accumulator unchanged), then drop
the candidate when its fingerprint is already in the chain, already in
`newItems`, or equal to the leaf's. -/
def collectStep (env : ForgeEnv) (tempChain newItems : List ChainItem)
    (certInfo : Option CertificateInfo)
    (cands : List (String × CertificateInfo)) (p : String) :
    List (String × CertificateInfo) :=
  match parseCertInfo env p with
  | none => cands
  | some info =>
    let existsInChain := tempChain.any (fun c => c.info.fingerprint == info.fingerprint)
    let existsInNew := newItems.any (fun c => c.info.fingerprint == info.fingerprint)
    let isLeaf := leafFpCheck certInfo info
    if !existsInChain && !existsInNew && !isLeaf then cands ++ [(info.raw, info)]
    else cands

/-- Candidate-collection loop of `handleAddCa` (lines 199-215).  `newItems`
is the list the in-batch duplicate check reads — in the source it is still
empty at this program point (items are only pushed to it in the later greedy
phase), which is why the caller passes `[]`. -/
def collectCandidates (env : ForgeEnv) (tempChain newItems : List ChainItem)
    (certInfo : Option CertificateInfo) (pems : List String) :
    List (String × CertificateInfo) :=
  pems.foldl (collectStep env tempChain newItems certInfo) []

/-- `candidates.findIndex(p)` followed by `candidates.splice(idx, 1)`:
locate the first element satisfying `p`, return it with the pool without
it. -/
def extractFirst (p : α → Bool) : List α → Option (α × List α)
  | [] => none
  | x :: xs =>
    if p x then some (x, xs)
    else
      match extractFirst p xs with
      | none => none
      | some (y, ys) => some (y, x :: ys)

/-- The greedy growth loop of `handleAddCa` (lines 234-261): repeatedly find
the first candidate that signs the current tail, remove it from the pool and
append it as a link with `signsChild = true`.  One fuel unit per loop
iteration; the caller passes `pool.length`, which is exact: each successful
iteration removes one candidate, and the loop otherwise stops.  Returns
`(new items, remaining pool, final tail PEM, final addedCount)`. -/
def greedyGrow (env : ForgeEnv) (now : Nat) :
    Nat → String → List (String × CertificateInfo) → Nat →
    List ChainItem × List (String × CertificateInfo) × String × Nat
  | 0, tail, pool, cnt => ([], pool, tail, cnt)
  | fuel + 1, tail, pool, cnt =>
    match extractFirst (fun c => verifyParent env tail c.1) pool with
    | none => ([], pool, tail, cnt)
    | some (c, rest) =>
      let item : ChainItem :=
        { id := "manual-" ++ toString now ++ "-" ++ toString cnt
          status := .uploaded
          info := c.2
          source := .uploaded
          pem := c.1
          isRoot := isSelfSigned env c.1
          signsChild := true }
      let r := greedyGrow env now fuel c.1 rest (cnt + 1)
      (item :: r.1, r.2)

/-- Phase 3 of `handleAddCa` (lines 263-277): append every remaining
candidate in its original order, computing `signsChild` against the
then-current tail and advancing the tail. -/
def appendLeftovers (env : ForgeEnv) (now : Nat) :
    Nat → String → List (String × CertificateInfo) → List ChainItem
  | _, _, [] => []
  | cnt, tail, c :: cs =>
    let item : ChainItem :=
      { id := "manual-" ++ toString now ++ "-" ++ toString cnt
        status := .uploaded
        info := c.2
        source := .uploaded
        pem := c.1
        isRoot := isSelfSigned env c.1
        signsChild := verifyParent env tail c.1 }
    item :: appendLeftovers env now (cnt + 1) c.1 cs

/-- The `currentTailPem` initialisation of `handleAddCa` (line 194): the last
chain link's PEM, or the leaf `certPem` when the chain is empty. -/
def currentTailPem (chainItems : List ChainItem) (certPem : Option String) :
    Option String :=
  match chainItems.getLast? with
  | some it => some it.pem
  | none => certPem

/-- `handleAddCa` from the block list onward (the body after the
`splitCaBundle` fallback, lines 192-280).  `now` models `Date.now()` used in
the generated ids, `certPem`/`certInfo` the leaf state. -/
def handleAddCaBlocks (env : ForgeEnv) (now : Nat) (chainItems : List ChainItem)
    (certPem : Option String) (certInfo : Option CertificateInfo)
    (pems : List String) : AddCaOutcome :=
  match currentTailPem chainItems certPem with
  | none => { chain := chainItems, notice := none }
  | some tail0 =>
    let candidates := collectCandidates env chainItems [] certInfo pems
    if candidates.isEmpty then
      let notice :=
        if pems.length = 1 then
          match parseCertInfo env (pems.headD "") with
          | some _ => AddCaNotice.noNewCerts
          | none => AddCaNotice.parseError
        else AddCaNotice.noNewCerts
      { chain := chainItems, notice := some notice }
    else
      let r := greedyGrow env now candidates.length tail0 candidates 0
      let leftovers := appendLeftovers env now r.2.2.2 r.2.2.1 r.2.1
      { chain := chainItems ++ r.1 ++ leftovers, notice := none }

/-- `handleAddCa` (lines 185-280): split the pasted content into PEM blocks;
if the regex finds none, fall back to treating the whole content as a single
block. -/
def handleAddCa (env : ForgeEnv) (now : Nat) (chainItems : List ChainItem)
    (certPem : Option String) (certInfo : Option CertificateInfo)
    (content : String) : AddCaOutcome :=
  let ps := env.splitBundle content
  handleAddCaBlocks env now chainItems certPem certInfo
    (if ps.isEmpty then [content] else ps)

/-- `handleRemoveCa` (lines 282-284):
`prev.filter((_, i) => i !== index)`. -/
def handleRemoveCa (chain : List ChainItem) (index : Nat) : List ChainItem :=
  (chain.enum.filter (fun p => p.1 != index)).map (fun p => p.2)

/-! ## Theorems about `handleRemoveCa` (claim C8) -/

theorem enumFrom_filter_lt_map (k : Nat) :
    ∀ (l : List ChainItem) (m : Nat), k < m →
      (((List.enumFrom m l).filter (fun p => p.1 != k)).map (fun p => p.2)) = l := by
  intro l
  induction l with
  | nil => intro m hm; simp
  | cons x xs ih =>
    intro m hm
    have hne : (m != k) = true := by simp only [bne_iff_ne, ne_eq]; omega
    simp only [List.enumFrom, List.filter_cons, hne, if_pos, List.map_cons]
    rw [ih (m + 1) (by omega)]

theorem enumFrom_filter_ne_map (l : List ChainItem) :
    ∀ (n i : Nat),
      (((List.enumFrom n l).filter (fun p => p.1 != (n + i))).map (fun p => p.2))
        = l.take i ++ l.drop (i + 1) := by
  induction l with
  | nil => intro n i; simp
  | cons x xs ih =>
    intro n i
    cases i with
    | zero =>
      have hne : (n != n + 0) = false := by simp
      simp only [List.enumFrom, List.filter_cons, hne, Bool.false_eq_true, if_false]
      rw [enumFrom_filter_lt_map (n + 0) xs (n + 1) (by omega)]
      simp
    | succ j =>
      have hne : (n != n + (j + 1)) = true := by simp only [bne_iff_ne, ne_eq]; omega
      simp only [List.enumFrom, List.filter_cons, hne, if_pos, List.map_cons]
      have harith : n + (j + 1) = (n + 1) + j := by omega
      rw [harith, ih (n + 1) j]
      simp

/-- Claim C8: for every chain and valid index, `handleRemoveCa` returns
exactly the links before the index followed by the links after it — every
other link is kept identically (all fields, including `signsChild` and
`isRoot`, unchanged) in its original relative order, and nothing is
re-validated or repaired. -/
theorem handleRemoveCa_frame (chain : List ChainItem) (index : Nat)
    (_h : index < chain.length) :
    handleRemoveCa chain index = chain.take index ++ chain.drop (index + 1) := by
  have := enumFrom_filter_ne_map chain 0 index
  simpa [handleRemoveCa, List.enum] using this

/-- Concrete chain links used in witnesses. -/
def sampleInfo (fp : String) : CertificateInfo :=
  { commonName := "CN", organization := "O", issuer := "I"
    validFrom := 0, validTo := 1, serialNumber := "01", raw := "RAW"
    aiaUrl := none, fingerprint := some fp }

def sampleItem (fp : String) : ChainItem :=
  { id := "id-" ++ fp, status := .uploaded, info := sampleInfo fp
    source := .uploaded, pem := "PEM-" ++ fp, isRoot := false, signsChild := true }

/-- Witness for `handleRemoveCa_frame` on a two-link chain at index 0. -/
theorem handleRemoveCa_frame_witness :
    handleRemoveCa [sampleItem "a", sampleItem "b"] 0
      = [sampleItem "a", sampleItem "b"].take 0
          ++ [sampleItem "a", sampleItem "b"].drop 1 :=
  handleRemoveCa_frame [sampleItem "a", sampleItem "b"] 0 (by decide)

/-! ## Theorems about `handleAddCa` (claims C3, C4, C7) -/

/-- Claim C7: whenever the tail exists and the candidate pool is empty after
parsing and deduplication, `handleAddCa` leaves the chain unchanged and
alerts a parse error exactly when the batch was a single block that fails to
parse, and a "no new certificates" notice in every other case. -/
theorem handleAddCa_empty_pool (env : ForgeEnv) (now : Nat)
    (chain : List ChainItem) (certPem : Option String)
    (certInfo : Option CertificateInfo) (pems : List String)
    (htail : (currentTailPem chain certPem).isSome = true)
    (hempty : collectCandidates env chain [] certInfo pems = []) :
    handleAddCaBlocks env now chain certPem certInfo pems
      = { chain := chain
          notice := some
            (if pems.length = 1 ∧ parseCertInfo env (pems.headD "") = none
             then AddCaNotice.parseError else AddCaNotice.noNewCerts) } := by
  obtain ⟨tail0, htail0⟩ := Option.isSome_iff_exists.mp htail
  simp only [handleAddCaBlocks, htail0, hempty, List.isEmpty_nil, if_pos]
  by_cases h1 : pems.length = 1
  · cases hp : parseCertInfo env (pems.headD "") with
    | none => simp [h1, hp]
    | some info => simp [h1, hp]
  · simp [h1]

/-- Environment in which nothing parses, for the C7 witness. -/
def nothingParsesEnv : ForgeEnv :=
  { parse := fun _ => none
    verify := fun _ _ => .err
    privateKeyFromPem := fun _ => none
    toPem := fun _ => ""
    sha1Fingerprint := fun _ => ""
    extractAiaUrl := fun _ => none
    splitBundle := fun _ => [] }

/-- Witness for `handleAddCa_empty_pool`: a single malformed block alerts the
parse error and leaves the chain unchanged. -/
theorem handleAddCa_empty_pool_witness :
    handleAddCaBlocks nothingParsesEnv 0 [] (some "L") none ["bad"]
      = { chain := []
          notice := some
            (if ["bad"].length = 1
                ∧ parseCertInfo nothingParsesEnv (["bad"].headD "") = none
             then AddCaNotice.parseError else AddCaNotice.noNewCerts) } :=
  handleAddCa_empty_pool nothingParsesEnv 0 [] (some "L") none ["bad"] rfl rfl

/-- Certificate whose issuer DN differs from its subject DN (so nothing
signs anything in `dupBatchEnv`). -/
def dupBatchCert : ForgeCert :=
  { subjectAttrs := [{ name := some "commonName", shortName := some "CN", value := "S" }]
    issuerAttrs := [{ name := some "commonName", shortName := some "CN", value := "I" }]
    serialNumber := "02"
    validFromTs := 0
    validToTs := 10
    rsaModulus := none }

/-- Environment for the C3 failing input: every block parses to
`dupBatchCert` (fingerprint `"fdup"`), and strict verification returns
`false`. -/
def dupBatchEnv : ForgeEnv :=
  { parse := fun _ => some dupBatchCert
    verify := fun _ _ => .ok false
    privateKeyFromPem := fun _ => none
    toPem := fun _ => "PPEM"
    sha1Fingerprint := fun _ => "fdup"
    extractAiaUrl := fun _ => none
    splitBundle := fun _ => [] }

/-- Claim C3, failing input: a batch containing the same certificate twice.
The in-batch duplicate check of `handleAddCa` reads `newItems`, which is
still empty during candidate collection, so both copies survive and the
resulting chain holds two links with the equal fingerprint `"fdup"` — the
no-duplicate-fingerprints invariant is violated even though the input chain
(empty) satisfied it and neither copy matches the leaf fingerprint
(`"leafFp"`). -/
theorem handleAddCa_batch_duplicate_bug :
    ((handleAddCaBlocks dupBatchEnv 0 [] (some "L")
        (some (sampleInfo "leafFp")) ["P", "P"]).chain.map
      (fun c => c.info.fingerprint)) = [some "fdup", some "fdup"] := by
  decide

/-! ## Theorems about `resolveChain` (claim C6) -/

theorem resolveChainLoop_length_le (env : ForgeEnv) (fetch : FetchFn) :
    ∀ (gas : Nat) (aia : Option String) (childPem : String) (depth : Nat),
      (resolveChainLoop env fetch gas aia childPem depth).1.length ≤ gas := by
  intro gas
  induction gas with
  | zero =>
    intro aia childPem depth
    cases aia <;> simp [resolveChainLoop]
  | succ n ih =>
    intro aia childPem depth
    cases aia with
    | none => simp [resolveChainLoop]
    | some a =>
      simp only [resolveChainLoop]
      cases hf : fetch a with
      | error e => simp
      | ok parentPem =>
        by_cases hcyc : parentPem = childPem
        · simp [hcyc]
        · simp only [if_neg hcyc]
          cases hp : parseCertInfo env parentPem with
          | none => simp
          | some parentInfo =>
            simp only []
            split
            · simp
            · simpa using Nat.succ_le_succ (ih parentInfo.aiaUrl parentPem (depth + 1))

/-- Claim C6, amended: automatic resolution always terminates with a bounded
result — on normal completion it commits at most `maxDepth = 5` links and
moves to the ANALYSIS step; when a fetch or parse failure escapes the loop it
moves to the manual CHAIN_BUILD step with the previous chain state unchanged
(the partially built `newChain` is discarded, not kept).  Additionally, a
fetched certificate byte-identical to the current tail (an issuance cycle)
stops the loop immediately with no error. -/
theorem resolveChain_bounded_graceful :
    (∀ (env : ForgeEnv) (fetch : FetchFn) (info : CertificateInfo)
        (rootPem : String) (prevChain : List ChainItem),
      ((resolveChain env fetch info rootPem prevChain).2 = AppStep.ANALYSIS
        ∧ (resolveChain env fetch info rootPem prevChain).1.length ≤ 5)
      ∨ ((resolveChain env fetch info rootPem prevChain).2 = AppStep.CHAIN_BUILD
        ∧ (resolveChain env fetch info rootPem prevChain).1 = prevChain))
    ∧ (∀ (env : ForgeEnv) (fetch : FetchFn) (gas : Nat) (aia childPem : String)
        (depth : Nat),
      fetch aia = Except.ok childPem →
        resolveChainLoop env fetch (gas + 1) (some aia) childPem depth
          = ([], false)) := by
  constructor
  · intro env fetch info rootPem prevChain
    cases hb : (resolveChainLoop env fetch 5 info.aiaUrl rootPem 0).2 with
    | true => right; simp [resolveChain, hb]
    | false =>
      left
      simp [resolveChain, hb,
        resolveChainLoop_length_le env fetch 5 info.aiaUrl rootPem 0]
  · intro env fetch gas aia childPem depth hf
    simp [resolveChainLoop, hf]

/-- A fetch function that always returns the same PEM, witnessing the cycle
branch. -/
def cycleFetch : FetchFn := fun _ => Except.ok "X"

/-- Witness for `resolveChain_bounded_graceful`: the cycle conjunct applied
at a concrete fetch function that immediately returns the current tail. -/
theorem resolveChain_bounded_graceful_witness :
    resolveChainLoop okFalseEnv cycleFetch 5 (some "u") "X" 0 = ([], false) :=
  resolveChain_bounded_graceful.2 okFalseEnv cycleFetch 4 "u" "X" 0 rfl

/-- Certificate used by the C6 counterexample: not self-signed in
`partialLossEnv` (issuer DN differs from subject DN and verification
throws), with a further AIA URL `"u2"`. -/
def partialLossEnv : ForgeEnv :=
  { parse := fun _ => some dupBatchCert
    verify := fun _ _ => .err
    privateKeyFromPem := fun _ => none
    toPem := fun _ => "PPEM"
    sha1Fingerprint := fun _ => "f1"
    extractAiaUrl := fun _ => some "u2"
    splitBundle := fun _ => [] }

/-- Fetch function for the C6 counterexample: the first URL resolves, the
second throws. -/
def failSecondFetch : FetchFn :=
  fun url => if url = "u1" then Except.ok "P1" else Except.error ()

/-- Leaf info for the C6 counterexample, carrying the AIA URL `"u1"`. -/
def partialLossInfo : CertificateInfo :=
  { sampleInfo "leafFp" with aiaUrl := some "u1" }

/-! ## Claim C4: properly ordered bundles -/

/-- A candidate pool is properly ordered from a given tail when each
candidate signs the tail produced by appending the previous ones (the last
tail advancing to each candidate's stored PEM). -/
def ProperlyOrdered (env : ForgeEnv) : String → List (String × CertificateInfo) → Prop
  | _, [] => True
  | tail, c :: cs => verifyParent env tail c.1 = true ∧ ProperlyOrdered env c.1 cs

/-- The PEM of the last pool element, or the given tail if the pool is
empty. -/
def poolLastPem (tail : String) (cands : List (String × CertificateInfo)) : String :=
  match cands.getLast? with
  | some c => c.1
  | none => tail

theorem poolLastPem_cons (tail : String) (c : String × CertificateInfo)
    (cs : List (String × CertificateInfo)) :
    poolLastPem tail (c :: cs) = poolLastPem c.1 cs := by
  cases cs <;> simp [poolLastPem, List.getLast?]

theorem collectStep_split (env : ForgeEnv) (tc ni : List ChainItem)
    (ci : Option CertificateInfo) (cands : List (String × CertificateInfo))
    (p : String) :
    collectStep env tc ni ci cands p = cands ++ collectStep env tc ni ci [] p := by
  cases hp : parseCertInfo env p with
  | none => simp [collectStep, hp]
  | some info =>
    simp only [collectStep, hp]
    split <;> simp [*]

theorem foldl_collectStep_acc (env : ForgeEnv) (tc ni : List ChainItem)
    (ci : Option CertificateInfo) :
    ∀ (ps : List String) (acc : List (String × CertificateInfo)),
      ps.foldl (collectStep env tc ni ci) acc
        = acc ++ ps.foldl (collectStep env tc ni ci) [] := by
  intro ps
  induction ps with
  | nil => intro acc; simp
  | cons p ps ih =>
    intro acc
    rw [List.foldl_cons, List.foldl_cons, ih (collectStep env tc ni ci acc p),
      ih (collectStep env tc ni ci [] p), collectStep_split,
      List.append_assoc]

/-- When every block parses and no candidate collides with the chain or the
leaf, candidate collection keeps all of them, storing the re-encoded PEM
`info.raw`. -/
theorem collectCandidates_all (env : ForgeEnv) (chain : List ChainItem)
    (ci : Option CertificateInfo) :
    ∀ (pems : List String) (infos : List CertificateInfo),
      List.Forall₂ (fun p i => parseCertInfo env p = some i) pems infos →
      (∀ i ∈ infos, chain.any (fun c => c.info.fingerprint == i.fingerprint) = false) →
      (∀ i ∈ infos, leafFpCheck ci i = false) →
      collectCandidates env chain [] ci pems = infos.map (fun i => (i.raw, i)) := by
  intro pems infos hall
  induction hall with
  | nil => intro _ _; rfl
  | @cons p i ps is hpi hps ih =>
    intro hchain hleaf
    have hstep : collectStep env chain [] ci [] p = [(i.raw, i)] := by
      unfold collectStep
      rw [hpi]
      have h1 : chain.any (fun c => c.info.fingerprint == i.fingerprint) = false :=
        hchain i (List.mem_cons_self i is)
      have h2 : leafFpCheck ci i = false := hleaf i (List.mem_cons_self i is)
      simp [h1, h2]
    unfold collectCandidates
    rw [List.foldl_cons, foldl_collectStep_acc, collectStep_split, List.nil_append,
      hstep]
    have ihr := ih (fun j hj => hchain j (List.mem_cons_of_mem i hj))
      (fun j hj => hleaf j (List.mem_cons_of_mem i hj))
    unfold collectCandidates at ihr
    rw [ihr, List.map_cons]
    rfl

/-- The greedy loop consumes a properly ordered pool completely and in
order: every produced item records `signsChild = true`, stores the
candidate's PEM and info, and flags `isRoot` by the self-signed check on
that PEM. -/
theorem greedyGrow_ordered (env : ForgeEnv) (now : Nat) :
    ∀ (cands : List (String × CertificateInfo)) (tail : String) (cnt : Nat),
      ProperlyOrdered env tail cands →
      ∃ items : List ChainItem,
        greedyGrow env now cands.length tail cands cnt
          = (items, [], poolLastPem tail cands, cnt + cands.length)
        ∧ items.length = cands.length
        ∧ (∀ it ∈ items, it.signsChild = true)
        ∧ items.map (fun it => it.isRoot) = cands.map (fun c => isSelfSigned env c.1) := by
  intro cands
  induction cands with
  | nil =>
    intro tail cnt _
    exact ⟨[], by simp [greedyGrow, poolLastPem], rfl, by simp, rfl⟩
  | cons c cs ih =>
    intro tail cnt hord
    obtain ⟨hsig, hrest⟩ := hord
    obtain ⟨items, heq, hlen, hsigns, hroots⟩ := ih c.1 (cnt + 1) hrest
    refine ⟨{ id := "manual-" ++ toString now ++ "-" ++ toString cnt
              status := .uploaded
              info := c.2
              source := .uploaded
              pem := c.1
              isRoot := isSelfSigned env c.1
              signsChild := true } :: items, ?_, ?_, ?_, ?_⟩
    · show greedyGrow env now (cs.length + 1) tail (c :: cs) cnt = _
      rw [greedyGrow]
      simp only [extractFirst, hsig, if_pos]
      rw [heq, poolLastPem_cons]
      have : cnt + 1 + cs.length = cnt + (cs.length + 1) := by omega
      simp [this]
    · simp [hlen]
    · intro it hit
      rcases List.mem_cons.mp hit with h | h
      · rw [h]
      · exact hsigns it h
    · simp only [List.map_cons, hroots]

/-- Claim C4: given a batch of blocks that all parse, none colliding with
the chain or the leaf, whose candidates are properly ordered (each signs the
previous tail) and whose last candidate is self-signed, `handleAddCa`
appends exactly one link per block, every appended link has
`signsChild = true`, and the last appended link has `isRoot = true`. -/
theorem handleAddCa_ordered_bundle (env : ForgeEnv) (now : Nat)
    (chain : List ChainItem) (certPem : Option String)
    (certInfo : Option CertificateInfo) (tail0 : String)
    (pems : List String) (infos : List CertificateInfo)
    (htail : currentTailPem chain certPem = some tail0)
    (hparse : List.Forall₂ (fun p i => parseCertInfo env p = some i) pems infos)
    (hne : infos ≠ [])
    (hchain : ∀ i ∈ infos, chain.any (fun c => c.info.fingerprint == i.fingerprint) = false)
    (hleaf : ∀ i ∈ infos, leafFpCheck certInfo i = false)
    (hnodup : infos.Pairwise (fun a b => (a.fingerprint == b.fingerprint) = false))
    (hordered : ProperlyOrdered env tail0 (infos.map (fun i => (i.raw, i))))
    (hroot : ∀ i, infos.getLast? = some i → isSelfSigned env i.raw = true) :
    ∃ newItems : List ChainItem,
      handleAddCaBlocks env now chain certPem certInfo pems
        = { chain := chain ++ newItems, notice := none }
      ∧ newItems.length = infos.length
      ∧ (∀ it ∈ newItems, it.signsChild = true)
      ∧ newItems.getLast?.map (fun it => it.isRoot) = some true := by
  have hcands : collectCandidates env chain [] certInfo pems
      = infos.map (fun i => (i.raw, i)) :=
    collectCandidates_all env chain certInfo pems infos hparse hchain hleaf
  obtain ⟨items, heq, hlen, hsigns, hroots⟩ :=
    greedyGrow_ordered env now (infos.map (fun i => (i.raw, i))) tail0 0 hordered
  have hcne : (infos.map (fun i => (i.raw, i))).isEmpty = false := by
    cases infos with
    | nil => exact absurd rfl hne
    | cons i is => rfl
  refine ⟨items, ?_, ?_, hsigns, ?_⟩
  · unfold handleAddCaBlocks
    rw [htail]
    simp only [hcands, hcne, Bool.false_eq_true, if_false, heq]
    rw [show (appendLeftovers env now (0 + (infos.map (fun i => (i.raw, i))).length)
          (poolLastPem tail0 (infos.map (fun i => (i.raw, i)))) []) = [] from rfl]
    simp
  · rw [hlen, List.length_map]
  · obtain ⟨lastInfo, hlast⟩ : ∃ i, infos.getLast? = some i := by
      cases h : infos.getLast? with
      | none => exact absurd (List.getLast?_eq_none_iff.mp h) hne
      | some i => exact ⟨i, rfl⟩
    rw [← List.getLast?_map, hroots]
    have : (infos.map (fun i => (i.raw, i))).map (fun c => isSelfSigned env c.1)
        = infos.map (fun i => isSelfSigned env i.raw) := by
      rw [List.map_map]; rfl
    rw [this, List.getLast?_map, hlast]
    simp [hroot lastInfo hlast]

/-- Environment for the C4 witness: every block parses and every signature
verifies. -/
def selfSignEnv : ForgeEnv :=
  { parse := fun _ => some dnMatchCert
    verify := fun _ _ => .ok true
    privateKeyFromPem := fun _ => none
    toPem := fun _ => "RAW-A"
    sha1Fingerprint := fun _ => "fpA"
    extractAiaUrl := fun _ => none
    splitBundle := fun _ => [] }

/-- The info record `parseCertInfo selfSignEnv` produces for any block. -/
def bundleInfoA : CertificateInfo :=
  { commonName := "A", organization := "Unknown", issuer := "A"
    validFrom := 0, validTo := 10, serialNumber := "01", raw := "RAW-A"
    aiaUrl := none, fingerprint := some "fpA" }

/-- Witness for `handleAddCa_ordered_bundle`: a single-certificate bundle
whose certificate signs the leaf and is self-signed. -/
theorem handleAddCa_ordered_bundle_witness :
    ∃ newItems : List ChainItem,
      handleAddCaBlocks selfSignEnv 0 [] (some "L") (some (sampleInfo "leafFp")) ["A"]
        = { chain := [] ++ newItems, notice := none }
      ∧ newItems.length = [bundleInfoA].length
      ∧ (∀ it ∈ newItems, it.signsChild = true)
      ∧ newItems.getLast?.map (fun it => it.isRoot) = some true :=
  handleAddCa_ordered_bundle selfSignEnv 0 [] (some "L")
    (some (sampleInfo "leafFp")) "L" ["A"] [bundleInfoA] rfl
    (List.Forall₂.cons rfl List.Forall₂.nil) (List.cons_ne_nil _ _)
    (by simp) (by decide) (by simp) ⟨by decide, trivial⟩
    (by intro i h; simp [List.getLast?] at h; subst h; decide)

/-- Claim C6, counterexample: with `failSecondFetch` the loop successfully
resolves one link (the partial `newChain` has length 1) and then the second
fetch throws; `resolveChain` commits nothing — the result is the previous
(empty) chain and the CHAIN_BUILD step, so the partial chain built so far is
discarded rather than kept. -/
theorem resolveChain_partial_discarded_cex :
    (resolveChainLoop partialLossEnv failSecondFetch 5 (some "u1") "leafPem" 0).1.length = 1
    ∧ resolveChain partialLossEnv failSecondFetch partialLossInfo "leafPem" []
        = ([], AppStep.CHAIN_BUILD) := by
  constructor
  · decide
  · decide

/-! ## Archive codec (`createTarball` and `untar`, `src/unnamed/part_007`
lines 226-366).  Buffers are byte lists; the `TextEncoder`/`TextDecoder`
pair on entry names and contents is modelled as the identity on bytes. -/

/-- Digits (as ASCII byte values) of `n.toString(8)` for `n ≥ 1`,
most-significant first.  Fuel-structural so that concrete archives evaluate
in the kernel; any fuel above the digit count (bounded by `n`) is exact. -/
def octalRepF : Nat → Nat → List Nat
  | 0, _ => []
  | _ + 1, 0 => []
  | fuel + 1, n + 1 => octalRepF fuel ((n + 1) / 8) ++ [48 + (n + 1) % 8]

/-- ASCII bytes of JS `val.toString(8)`. -/
def octalDigits (n : Nat) : List Nat :=
  match n with
  | 0 => [48]
  | m + 1 => octalRepF (m + 2) (m + 1)

/-- `writeString` (lines 226-232) on a fresh region: the first
`min(str.length, len)` bytes of the string (`Uint8Array` stores values mod
256), the rest of the field left zero. -/
def stringField (s : List Nat) (len : Nat) : List Nat :=
  (s.take len).map (fun b => b % 256) ++ List.replicate (len - s.length) 0

/-- `writeOctal` (lines 234-246) on a fresh region: leading ASCII zeros, the
octal digits, and a terminating NUL at the last byte of the field.  When the
digit string has exactly `len` digits the final NUL overwrites the last
digit, as in the source; digit strings longer than the field (which the
source would write past the field's end) are truncated — the round-trip
theorem's size hypotheses keep every use inside the field. -/
def octalField (len val : Nat) : List Nat :=
  let s := octalDigits val
  List.replicate (len - s.length - 1) 48 ++ s.take (len - 1) ++ [0]

/-- Bytes 0-147 of the header: name, mode `0o644`, uid `0o1000`,
gid `0o1000`, size, mtime (`createTarHeader`, lines 248-257). -/
def tarHeaderPre (name : List Nat) (size mtime : Nat) : List Nat :=
  stringField name 100 ++ octalField 8 420 ++ octalField 8 512
    ++ octalField 8 512 ++ octalField 12 size ++ octalField 12 mtime

/-- Bytes 156-511 of the header: type flag `'0'`, empty linkname, `"ustar"`,
version `"00"`, and the untouched zero remainder of the 512-byte block
(lines 259-262). -/
def tarHeaderTail : List Nat :=
  48 :: (List.replicate 100 0 ++ ([117, 115, 116, 97, 114] ++ [0])
    ++ [48, 48] ++ List.replicate 247 0)

/-- The header checksum (lines 264-266): byte sum of the block with the
checksum field holding eight spaces. -/
def tarChecksum (name : List Nat) (size mtime : Nat) : Nat :=
  (tarHeaderPre name size mtime ++ List.replicate 8 32 ++ tarHeaderTail).foldl
    (· + ·) 0

/-- `createTarHeader` (lines 248-269): fields written into a fresh 512-byte
block, the checksum computed over the block with the checksum field holding
eight spaces, then written over bytes 148-155. -/
def tarHeader (name : List Nat) (size mtime : Nat) : List Nat :=
  tarHeaderPre name size mtime ++ octalField 8 (tarChecksum name size mtime)
    ++ tarHeaderTail

/-- Zero padding after an entry's content (lines 284-287): `512 - size % 512`
bytes, skipped entirely when that would be a full block. -/
def tarPad (size : Nat) : List Nat :=
  let p := 512 - size % 512
  if p < 512 then List.replicate p 0 else []

/-- One entry of the archive: header block, raw content, padding. -/
def tarEntryBytes (mtime : Nat) (f : List Nat × List Nat) : List Nat :=
  tarHeader f.1 f.2.length mtime ++ f.2 ++ tarPad f.2.length

/-- `createTarball` (lines 271-302): concatenated entries followed by two
zero-filled 512-byte blocks.  `mtime` models `Date.now() / 1000`. -/
def createTarball (mtime : Nat) (files : List (List Nat × List Nat)) : List Nat :=
  (files.map (tarEntryBytes mtime)).flatten ++ List.replicate 1024 0

/-- Whitespace bytes skipped by JS `parseInt`. -/
def isWsByte (b : Nat) : Bool :=
  b = 32 || b = 9 || b = 10 || b = 11 || b = 12 || b = 13

/-- ASCII octal digit. -/
def isOctDigit (b : Nat) : Bool :=
  48 ≤ b && b < 56

/-- JS `parseInt(str, 8)` on the bytes of `str`: skip leading whitespace,
read the longest octal-digit prefix, `none` models `NaN` when no digit is
found (an explicit sign is not modelled; tar size fields are unsigned). -/
def jsParseOctal (l : List Nat) : Option Nat :=
  let ds := (l.dropWhile isWsByte).takeWhile isOctDigit
  if ds.isEmpty then none
  else some (ds.foldl (fun a d => a * 8 + (d - 48)) 0)

/-- The scan loop of `untar` (lines 328-363) on the remaining buffer
suffix (the JS code only reads at `offset + i`, so absolute offsets and
suffixes coincide).  One fuel unit per loop iteration; each iteration
advances by at least 512 bytes, so the caller's `buf.length + 1` fuel is
exact.  An all-zero block stops the scan when at least 1024 bytes remain and
the first byte of the following block is zero, and is otherwise skipped as
padding; a header yields an entry when its type byte is `'0'`, NUL or a
space; a `NaN` size (none) pushes an empty-content entry and then fails the
loop bound check, ending the scan. -/
def untarGoF : Nat → List Nat → List (List Nat × List Nat)
  | 0, _ => []
  | fuel + 1, rem =>
    if 512 ≤ rem.length then
      if (rem.take 512).all (fun b => b == 0) then
        if 1024 ≤ rem.length && rem.getD 512 1 == 0 then []
        else untarGoF fuel (rem.drop 512)
      else
        let name := (rem.take 100).takeWhile (fun b => b != 0)
        let sizeOpt := jsParseOctal (((rem.drop 124).take 12).takeWhile (fun b => b != 0))
        let typ := rem.getD 156 0
        let entry :=
          if typ == 48 || typ == 0 || typ == 32 then
            [(name, (rem.drop 512).take (sizeOpt.getD 0))]
          else []
        match sizeOpt with
        | none => entry
        | some size => entry ++ untarGoF fuel (rem.drop (512 + 512 * ((size + 511) / 512)))
    else []

/-- `untar` (lines 312-366). -/
def untar (buf : List Nat) : List (List Nat × List Nat) :=
  untarGoF (buf.length + 1) buf

/-! ## Octal digit lemmas -/

theorem octalRepF_mem (n : Nat) :
    ∀ (fuel d : Nat), d ∈ octalRepF fuel n → 48 ≤ d ∧ d < 56 := by
  induction n using Nat.strong_induction_on with
  | _ n ih =>
    intro fuel d hd
    match n, fuel with
    | _, 0 => simp [octalRepF] at hd
    | 0, f + 1 => simp [octalRepF] at hd
    | m + 1, f + 1 =>
      rw [octalRepF] at hd
      rcases List.mem_append.mp hd with h | h
      · exact ih ((m + 1) / 8) (Nat.div_lt_self (by omega) (by omega)) f d h
      · have : d = 48 + (m + 1) % 8 := by simpa using h
        have hm : (m + 1) % 8 < 8 := Nat.mod_lt _ (by omega)
        omega

theorem octalRepF_foldl (n : Nat) :
    ∀ (fuel a : Nat), n ≤ fuel →
      (octalRepF fuel n).foldl (fun acc d => acc * 8 + (d - 48)) a
        = a * 8 ^ (octalRepF fuel n).length + n := by
  induction n using Nat.strong_induction_on with
  | _ n ih =>
    intro fuel a hnf
    match n, fuel with
    | 0, 0 => simp [octalRepF]
    | 0, f + 1 => simp [octalRepF]
    | m + 1, f + 1 =>
      rw [octalRepF, List.foldl_append, List.length_append]
      have hdiv : (m + 1) / 8 < m + 1 := Nat.div_lt_self (by omega) (by omega)
      have hle : (m + 1) / 8 ≤ f := by omega
      rw [ih ((m + 1) / 8) hdiv f a hle]
      have h8 : (m + 1) % 8 < 8 := Nat.mod_lt _ (by omega)
      have hsplit : (m + 1) / 8 * 8 + (m + 1) % 8 = m + 1 := by omega
      simp only [List.foldl_cons, List.foldl_nil, List.length_cons, List.length_nil]
      rw [Nat.pow_succ]
      have : 48 + (m + 1) % 8 - 48 = (m + 1) % 8 := by omega
      rw [this]
      ring_nf
      omega

theorem octalRepF_length_le (n : Nat) :
    ∀ (fuel k : Nat), n ≤ fuel → n < 8 ^ k → (octalRepF fuel n).length ≤ k := by
  induction n using Nat.strong_induction_on with
  | _ n ih =>
    intro fuel k hnf hnk
    match n, fuel with
    | _, 0 => simp [octalRepF]
    | 0, f + 1 => simp [octalRepF]
    | m + 1, f + 1 =>
      rw [octalRepF, List.length_append]
      cases k with
      | zero => simp at hnk
      | succ j =>
        have hdiv : (m + 1) / 8 < m + 1 := Nat.div_lt_self (by omega) (by omega)
        have hle : (m + 1) / 8 ≤ f := by omega
        have hlt : (m + 1) / 8 < 8 ^ j := by
          rw [Nat.pow_succ] at hnk
          exact Nat.div_lt_of_lt_mul (by omega)
        have := ih ((m + 1) / 8) hdiv f j hle hlt
        simp only [List.length_cons, List.length_nil]
        omega

theorem octalRepF_ne_nil (m f : Nat) : octalRepF (f + 1) (m + 1) ≠ [] := by
  rw [octalRepF]
  simp

theorem octalDigits_mem (n d : Nat) (h : d ∈ octalDigits n) : 48 ≤ d ∧ d < 56 := by
  match n with
  | 0 =>
    have : d = 48 := by simpa [octalDigits] using h
    omega
  | m + 1 => exact octalRepF_mem (m + 1) (m + 2) d h

theorem octalDigits_length_pos (n : Nat) : 1 ≤ (octalDigits n).length := by
  match n with
  | 0 => simp [octalDigits]
  | m + 1 =>
    have := octalRepF_ne_nil m (m + 1)
    simpa [octalDigits, Nat.one_le_iff_ne_zero, List.length_eq_zero] using this

theorem octalDigits_length_le (n k : Nat) (hk : 1 ≤ k) (h : n < 8 ^ k) :
    (octalDigits n).length ≤ k := by
  match n with
  | 0 => simpa [octalDigits] using hk
  | m + 1 => exact octalRepF_length_le (m + 1) (m + 2) k (by omega) h

theorem octalDigits_foldl (n : Nat) :
    (octalDigits n).foldl (fun acc d => acc * 8 + (d - 48)) 0 = n := by
  match n with
  | 0 => simp [octalDigits]
  | m + 1 =>
    have := octalRepF_foldl (m + 1) (m + 2) 0 (by omega)
    simpa [octalDigits] using this

/-! ## Header field lemmas -/

theorem stringField_length (s : List Nat) (len : Nat) :
    (stringField s len).length = len := by
  simp only [stringField, List.length_append, List.length_map, List.length_take,
    List.length_replicate]
  omega

theorem octalField_length (len val : Nat) (h : 1 ≤ len) :
    (octalField len val).length = len := by
  have hp := octalDigits_length_pos val
  simp only [octalField, List.length_append, List.length_replicate, List.length_take,
    List.length_cons, List.length_nil]
  omega

theorem takeWhile_nz_replicate_zero (k : Nat) :
    (List.replicate k (0 : Nat)).takeWhile (fun b => b != 0) = [] := by
  cases k with
  | zero => rfl
  | succ j => rw [List.replicate_succ, List.takeWhile_cons_of_neg (by simp)]

/-- On a NUL-free name of at most 100 bytes with byte values, the name field
reads back exactly. -/
theorem stringField_readback (s : List Nat) (h100 : s.length ≤ 100)
    (hz : ∀ b ∈ s, b ≠ 0) (hlt : ∀ b ∈ s, b < 256) :
    (stringField s 100).takeWhile (fun b => b != 0) = s := by
  have hmap : (s.take 100).map (fun b => b % 256) = s := by
    rw [List.take_of_length_le h100]
    calc s.map (fun b => b % 256) = s.map id := by
          apply List.map_congr_left
          intro b hb
          exact Nat.mod_eq_of_lt (hlt b hb)
      _ = s := List.map_id s
  rw [stringField, hmap,
    List.takeWhile_append_of_pos (by intro a ha; simpa using hz a ha),
    takeWhile_nz_replicate_zero, List.append_nil]

theorem foldl_octal_replicate48 (j : Nat) :
    (List.replicate j (48 : Nat)).foldl (fun a d => a * 8 + (d - 48)) 0 = 0 := by
  induction j with
  | zero => rfl
  | succ k ih => rw [List.replicate_succ, List.foldl_cons]; simpa using ih

/-- `jsParseOctal` recovers the value from an all-octal-digit nonempty
list of the shape produced by a field read. -/
theorem jsParseOctal_digits (l : List Nat) (hall : ∀ a ∈ l, isOctDigit a = true)
    (hne : l ≠ []) :
    jsParseOctal l = some (l.foldl (fun a d => a * 8 + (d - 48)) 0) := by
  have h1 : l.dropWhile isWsByte = l := by
    cases l with
    | nil => rfl
    | cons x xs =>
      have hx := hall x (List.mem_cons_self x xs)
      rw [List.dropWhile_cons_of_neg]
      simp only [isOctDigit, Bool.and_eq_true, decide_eq_true_eq] at hx
      simp [isWsByte]
      omega
  have h2 : l.takeWhile isOctDigit = l := List.takeWhile_eq_self_iff.mpr hall
  unfold jsParseOctal
  rw [h1, h2, if_neg (by simpa [List.isEmpty_iff] using hne)]

/-- The octal field of a value whose digit string fits strictly inside the
field parses back to the value. -/
theorem octalField_parse (len val : Nat) (h : (octalDigits val).length + 1 ≤ len) :
    jsParseOctal ((octalField len val).takeWhile (fun b => b != 0)) = some val := by
  have hfield : octalField len val
      = List.replicate (len - (octalDigits val).length - 1) 48
          ++ (octalDigits val ++ [0]) := by
    simp only [octalField]
    rw [List.take_of_length_le (by omega), List.append_assoc]
  have hdig : ∀ a ∈ octalDigits val, (a != 0) = true := by
    intro a ha
    have := octalDigits_mem val a ha
    simp only [bne_iff_ne, ne_eq]
    omega
  have hrep : ∀ a ∈ List.replicate (len - (octalDigits val).length - 1) (48 : Nat),
      (a != 0) = true := by
    intro a ha
    have := List.eq_of_mem_replicate ha
    simp [this]
  have htw : (octalField len val).takeWhile (fun b => b != 0)
      = List.replicate (len - (octalDigits val).length - 1) 48 ++ octalDigits val := by
    rw [hfield, List.takeWhile_append_of_pos hrep,
      List.takeWhile_append_of_pos hdig, List.takeWhile_cons_of_neg (by simp),
      List.append_nil]
  rw [htw]
  have hall : ∀ a ∈ List.replicate (len - (octalDigits val).length - 1) 48
      ++ octalDigits val, isOctDigit a = true := by
    intro a ha
    rcases List.mem_append.mp ha with h | h
    · have := List.eq_of_mem_replicate h
      simp [this, isOctDigit]
    · have := octalDigits_mem val a h
      simp only [isOctDigit, Bool.and_eq_true, decide_eq_true_eq]
      omega
  have hne : List.replicate (len - (octalDigits val).length - 1) 48
      ++ octalDigits val ≠ [] := by
    intro hc
    have := octalDigits_length_pos val
    have := congrArg List.length hc
    simp only [List.length_append, List.length_replicate, List.length_nil] at this
    omega
  rw [jsParseOctal_digits _ hall hne, List.foldl_append, foldl_octal_replicate48,
    octalDigits_foldl]

/-! ## Header structure lemmas -/

theorem tarHeaderTail_length : tarHeaderTail.length = 356 := by
  simp only [tarHeaderTail, List.length_cons, List.length_append,
    List.length_replicate, List.length_nil]

theorem tarHeaderPre_length (name : List Nat) (size mtime : Nat) :
    (tarHeaderPre name size mtime).length = 148 := by
  have h8 : ∀ v, (octalField 8 v).length = 8 := fun v => octalField_length 8 v (by omega)
  have h12 : ∀ v, (octalField 12 v).length = 12 := fun v => octalField_length 12 v (by omega)
  simp only [tarHeaderPre, List.length_append, stringField_length, h8, h12]

theorem tarHeader_length (name : List Nat) (size mtime : Nat) :
    (tarHeader name size mtime).length = 512 := by
  have h8 : ∀ v, (octalField 8 v).length = 8 := fun v => octalField_length 8 v (by omega)
  simp only [tarHeader, List.length_append, tarHeaderPre_length, h8,
    tarHeaderTail_length]

theorem tarEntryBytes_length (mtime : Nat) (f : List Nat × List Nat) :
    (tarEntryBytes mtime f).length
      = 512 + f.2.length + (tarPad f.2.length).length := by
  simp only [tarEntryBytes, List.length_append, tarHeader_length]

theorem tarEntryBytes_length_eq (mtime : Nat) (f : List Nat × List Nat) :
    (tarEntryBytes mtime f).length = 512 + 512 * ((f.2.length + 511) / 512) := by
  rw [tarEntryBytes_length]
  simp only [tarPad]
  split
  · simp only [List.length_replicate]
    omega
  · simp only [List.length_nil]
    omega

theorem tarHeader_decomp (name : List Nat) (size mtime : Nat) :
    ∃ c, tarHeader name size mtime
      = tarHeaderPre name size mtime ++ octalField 8 c ++ tarHeaderTail :=
  ⟨tarChecksum name size mtime, rfl⟩

theorem tarHeaderPre_append_take100 (name : List Nat) (size mtime : Nat)
    (X : List Nat) :
    ((tarHeaderPre name size mtime) ++ X).take 100 = stringField name 100 := by
  simp only [tarHeaderPre, List.append_assoc]
  exact List.take_left' (stringField_length name 100)

theorem tarHeaderPre_append_drop124 (name : List Nat) (size mtime : Nat)
    (X : List Nat) :
    ((tarHeaderPre name size mtime) ++ X).drop 124
      = octalField 12 size ++ (octalField 12 mtime ++ X) := by
  simp only [tarHeaderPre, List.append_assoc]
  have hre : stringField name 100 ++ (octalField 8 420 ++ (octalField 8 512
        ++ (octalField 8 512 ++ (octalField 12 size ++ (octalField 12 mtime ++ X)))))
      = (stringField name 100 ++ octalField 8 420 ++ octalField 8 512
          ++ octalField 8 512)
        ++ (octalField 12 size ++ (octalField 12 mtime ++ X)) := by
    simp [List.append_assoc]
  rw [hre]
  apply List.drop_left'
  simp [List.length_append, stringField_length, octalField_length 8 _ (by omega)]

theorem getD_append_cons (l₁ l₂ : List Nat) (b n : Nat) (h : l₁.length = n) :
    (l₁ ++ (b :: l₂)).getD n 0 = b := by
  have h1 : (l₁ ++ (b :: l₂))[n]? = (b :: l₂)[n - l₁.length]? :=
    List.getElem?_append_right (by omega)
  have h2 : n - l₁.length = 0 := by omega
  simp [List.getD, h1, h2]

/-- One archive entry followed by anything: the `untar` loop reads back the
entry's name and byte-exact content and continues right after the entry's
padding, consuming one loop iteration. -/
theorem untarGoF_entry (fuel mtime : Nat) (name content rest : List Nat)
    (hn100 : name.length ≤ 100) (hnz : ∀ b ∈ name, b ≠ 0)
    (hnlt : ∀ b ∈ name, b < 256) (hsz : content.length < 8 ^ 11)
    (hmt : mtime < 8 ^ 11) :
    untarGoF (fuel + 1) (tarEntryBytes mtime (name, content) ++ rest)
      = (name, content) :: untarGoF fuel rest := by
  obtain ⟨c, hc⟩ := tarHeader_decomp name content.length mtime
  have hprelen : (tarHeaderPre name content.length mtime).length = 148 :=
    tarHeaderPre_length name content.length mtime
  have hhdrlen : (tarHeader name content.length mtime).length = 512 :=
    tarHeader_length name content.length mtime
  have hbuf : tarEntryBytes mtime (name, content) ++ rest
      = tarHeader name content.length mtime
          ++ (content ++ (tarPad content.length ++ rest)) := by
    simp [tarEntryBytes, List.append_assoc]
  have h512 : 512 ≤ (tarHeader name content.length mtime
      ++ (content ++ (tarPad content.length ++ rest))).length := by
    simp [List.length_append, hhdrlen]
  have htake : (tarHeader name content.length mtime
      ++ (content ++ (tarPad content.length ++ rest))).take 512
      = tarHeader name content.length mtime := List.take_left' hhdrlen
  have hallf : (tarHeader name content.length mtime).all (fun b => b == 0) = false := by
    apply List.all_eq_false.mpr
    refine ⟨48, ?_, by simp⟩
    rw [hc]
    refine List.mem_append_right _ ?_
    simp only [tarHeaderTail]
    exact List.mem_cons_self _ _
  have hname : (((tarHeader name content.length mtime
      ++ (content ++ (tarPad content.length ++ rest))).take 100).takeWhile
        (fun b => b != 0)) = name := by
    rw [hc]
    simp only [List.append_assoc]
    rw [tarHeaderPre_append_take100 name content.length mtime
      (octalField 8 c ++ (tarHeaderTail
        ++ (content ++ (tarPad content.length ++ rest)))),
      stringField_readback name hn100 hnz hnlt]
  have hsizeread : jsParseOctal ((((tarHeader name content.length mtime
      ++ (content ++ (tarPad content.length ++ rest))).drop 124).take 12).takeWhile
        (fun b => b != 0)) = some content.length := by
    rw [hc]
    simp only [List.append_assoc]
    rw [tarHeaderPre_append_drop124 name content.length mtime
      (octalField 8 c ++ (tarHeaderTail
        ++ (content ++ (tarPad content.length ++ rest)))),
      List.take_left' (octalField_length 12 content.length (by omega))]
    apply octalField_parse
    have := octalDigits_length_le content.length 11 (by omega) hsz
    omega
  have htyp : (tarHeader name content.length mtime
      ++ (content ++ (tarPad content.length ++ rest))).getD 156 0 = 48 := by
    rw [hc]
    have hre : ((tarHeaderPre name content.length mtime ++ octalField 8 c)
          ++ tarHeaderTail)
          ++ (content ++ (tarPad content.length ++ rest))
        = (tarHeaderPre name content.length mtime ++ octalField 8 c)
          ++ (tarHeaderTail ++ (content ++ (tarPad content.length ++ rest))) := by
      simp [List.append_assoc]
    rw [hre]
    simp only [tarHeaderTail, List.cons_append]
    apply getD_append_cons
    simp [List.length_append, hprelen, octalField_length 8 c (by omega)]
  have hcont : ((tarHeader name content.length mtime
      ++ (content ++ (tarPad content.length ++ rest))).drop 512).take content.length
      = content := by
    rw [List.drop_left' hhdrlen]
    exact List.take_left content (tarPad content.length ++ rest)
  have hdropall : (tarHeader name content.length mtime
      ++ (content ++ (tarPad content.length ++ rest))).drop
        (512 + 512 * ((content.length + 511) / 512)) = rest := by
    rw [← hbuf]
    exact List.drop_left' (tarEntryBytes_length_eq mtime (name, content))
  rw [hbuf, untarGoF, if_pos h512, htake, hallf]
  simp only [Bool.false_eq_true, if_false, hname, hsizeread, htyp]
  simp only [Option.getD_some, hcont, hdropall]
  simp

theorem untarGoF_terminator (fuel : Nat) :
    untarGoF (fuel + 1) (List.replicate 1024 0) = [] := by
  rw [untarGoF]
  have hlen : (List.replicate 1024 (0 : Nat)).length = 1024 := List.length_replicate 1024 0
  rw [if_pos (by rw [hlen]; omega)]
  have ht : (List.replicate 1024 (0 : Nat)).take 512 = List.replicate 512 0 := by
    rw [List.take_replicate]
    norm_num
  have hall : (List.replicate 512 (0 : Nat)).all (fun b => b == 0) = true := by
    rw [List.all_eq_true]
    intro x hx
    rw [List.eq_of_mem_replicate hx]
    rfl
  have hg : (List.replicate 1024 (0 : Nat)).getD 512 1 = 0 := by
    simp only [List.getD, List.getElem?_replicate]
    norm_num
  rw [ht, if_pos hall, if_pos (by rw [hlen, hg]; rfl)]

theorem untarGoF_archive (mtime : Nat) :
    ∀ (files : List (List Nat × List Nat)) (fuel : Nat),
      files.length ≤ fuel →
      (∀ f ∈ files, f.1.length ≤ 100 ∧ (∀ b ∈ f.1, b ≠ 0 ∧ b < 256)
        ∧ f.2.length < 8 ^ 11) →
      mtime < 8 ^ 11 →
      untarGoF (fuel + 1) ((files.map (tarEntryBytes mtime)).flatten
          ++ List.replicate 1024 0) = files := by
  intro files
  induction files with
  | nil =>
    intro fuel _ _ _
    exact untarGoF_terminator fuel
  | cons f fs ih =>
    intro fuel hfuel hhyp hmt
    cases fuel with
    | zero => simp only [List.length_cons] at hfuel; omega
    | succ g =>
      obtain ⟨name, content⟩ := f
      have hf := hhyp (name, content) (List.mem_cons_self _ _)
      have hb : (((name, content) :: fs).map (tarEntryBytes mtime)).flatten
            ++ List.replicate 1024 0
          = tarEntryBytes mtime (name, content)
            ++ ((fs.map (tarEntryBytes mtime)).flatten ++ List.replicate 1024 0) := by
        simp only [List.map_cons, List.flatten_cons, List.append_assoc]
      rw [hb,
        untarGoF_entry (g + 1) mtime name content
          ((fs.map (tarEntryBytes mtime)).flatten ++ List.replicate 1024 0)
          hf.1 (fun b hbm => (hf.2.1 b hbm).1) (fun b hbm => (hf.2.1 b hbm).2)
          hf.2.2 hmt]
      rw [ih g (by simp only [List.length_cons] at hfuel; omega)
        (fun x hx => hhyp x (List.mem_cons_of_mem _ hx)) hmt]

theorem flatten_entries_length (mtime : Nat) :
    ∀ files : List (List Nat × List Nat),
      files.length ≤ ((files.map (tarEntryBytes mtime)).flatten).length := by
  intro files
  induction files with
  | nil => simp
  | cons f fs ih =>
    simp only [List.map_cons, List.flatten_cons, List.length_append, List.length_cons]
    have h1 : 1 ≤ (tarEntryBytes mtime f).length := by
      rw [tarEntryBytes_length]
      omega
    omega

/-- Claim C2, amended: packing then unpacking reproduces the `(name,
content)` pairs byte-exactly and in insertion order, for names of at most
100 bytes that contain no NUL byte, contents shorter than `8^11` bytes (the
12-byte octal size field holds at most 11 digits before its NUL), and an
mtime below `8^11`. -/
theorem untar_createTarball_roundTrip (mtime : Nat)
    (files : List (List Nat × List Nat))
    (hname : ∀ f ∈ files, f.1.length ≤ 100 ∧ ∀ b ∈ f.1, b ≠ 0 ∧ b < 256)
    (hcontent : ∀ f ∈ files, f.2.length < 8 ^ 11 ∧ ∀ b ∈ f.2, b < 256)
    (hmtime : mtime < 8 ^ 11) :
    untar (createTarball mtime files) = files := by
  unfold untar createTarball
  have hlen : files.length
      ≤ ((files.map (tarEntryBytes mtime)).flatten ++ List.replicate 1024 0).length := by
    have := flatten_entries_length mtime files
    simp only [List.length_append, List.length_replicate]
    omega
  exact untarGoF_archive mtime files _ hlen
    (fun f hf => ⟨(hname f hf).1, (hname f hf).2, (hcontent f hf).1⟩) hmtime

set_option maxRecDepth 10000 in
/-- Witness for `untar_createTarball_roundTrip` on a concrete archive. -/
theorem untar_createTarball_roundTrip_witness :
    untar (createTarball 12345 [([65], [66, 67])]) = [([65], [66, 67])] :=
  untar_createTarball_roundTrip 12345 [([65], [66, 67])]
    (by decide) (by decide) (by decide)

set_option maxRecDepth 10000 in
/-- Claim C2, counterexample: the two-byte entry name `"A\0"` (bytes
`[65, 0]`, within the 100-byte limit) does not survive the round trip — the
name field is NUL-terminated on read, so the unpacked name is `[65]`. -/
theorem untar_createTarball_nul_name_cex :
    untar (createTarball 0 [([65, 0], [])]) = [([65], [])]
    ∧ untar (createTarball 0 [([65, 0], [])]) ≠ [([65, 0], [])] := by
  refine ⟨by decide, by decide⟩

/-! ## Claim C5: the terminator check -/

/-- Modelled from the claim's words (C5, spec §4.2 unpack contract), for
comparison with `untarGoF`: on an all-zero block, stop only after confirming
that the entire following block is also zero or the buffer ends; otherwise
skip the block as padding and continue.  All other behaviour mirrors
`untarGoF`. -/
def untarSpecC5F : Nat → List Nat → List (List Nat × List Nat)
  | 0, _ => []
  | fuel + 1, rem =>
    if 512 ≤ rem.length then
      if (rem.take 512).all (fun b => b == 0) then
        if rem.length < 1024 then []
        else if ((rem.drop 512).take 512).all (fun b => b == 0) then []
        else untarSpecC5F fuel (rem.drop 512)
      else
        let name := (rem.take 100).takeWhile (fun b => b != 0)
        let sizeOpt := jsParseOctal (((rem.drop 124).take 12).takeWhile (fun b => b != 0))
        let typ := rem.getD 156 0
        let entry :=
          if typ == 48 || typ == 0 || typ == 32 then
            [(name, (rem.drop 512).take (sizeOpt.getD 0))]
          else []
        match sizeOpt with
        | none => entry
        | some size => entry ++ untarSpecC5F fuel (rem.drop (512 + 512 * ((size + 511) / 512)))
    else []

/-- The claim-faithful unpacker built on `untarSpecC5F`. -/
def untarClaimC5 (buf : List Nat) : List (List Nat × List Nat) :=
  untarSpecC5F (buf.length + 1) buf

/-- A 512-byte block whose first byte is zero but which is not entirely
zero: an empty name, an 11-digit zero size field, type flag `'0'`. -/
def zeroLeadHeader : List Nat :=
  List.replicate 124 0 ++ (List.replicate 11 48 ++ [0]) ++ List.replicate 20 0
    ++ [48] ++ List.replicate 355 0

set_option maxRecDepth 10000 in
/-- Claim C5, counterexample: after an all-zero block, `untar` checks only
the first byte of the following block — here that byte is zero while the
block as a whole is not zero (first conjunct), so by the claim the scan must
continue and parse the header (as the claim-faithful `untarClaimC5` does,
yielding the empty-named entry), but `untar` stops and returns nothing. -/
theorem untar_terminator_first_byte_cex :
    zeroLeadHeader.all (fun b => b == 0) = false
    ∧ untarClaimC5 (List.replicate 512 0 ++ zeroLeadHeader) = [([], [])]
    ∧ untar (List.replicate 512 0 ++ zeroLeadHeader) = [] := by
  refine ⟨by decide, by decide, by decide⟩

/-- Claim C5, amended: when the scan loop meets a 512-byte block that is
entirely zero, it stops exactly when at least 1024 bytes remain and the
first byte of the following block is zero; otherwise (including when the
buffer ends within the next block) it skips the all-zero block as alignment
padding and continues scanning at the next block boundary. -/
theorem untar_zero_block_step (fuel : Nat) (rem : List Nat)
    (h512 : 512 ≤ rem.length)
    (hzero : (rem.take 512).all (fun b => b == 0) = true) :
    untarGoF (fuel + 1) rem
      = if 1024 ≤ rem.length && rem.getD 512 1 == 0 then []
        else untarGoF fuel (rem.drop 512) := by
  rw [untarGoF, if_pos h512, if_pos hzero]

set_option maxRecDepth 10000 in
/-- Witness for `untar_zero_block_step` on a concrete all-zero buffer. -/
theorem untar_zero_block_step_witness :
    untarGoF (3 + 1) (List.replicate 1024 0)
      = if 1024 ≤ (List.replicate 1024 (0 : Nat)).length
            && (List.replicate 1024 (0 : Nat)).getD 512 1 == 0 then []
        else untarGoF 3 ((List.replicate 1024 (0 : Nat)).drop 512) :=
  untar_zero_block_step 3 (List.replicate 1024 0) (by decide) (by decide)

end WingTrust
